import Mathlib

/-!
# Onto-X: verified model of the ontology loader, resolver and ancestor traversal

This file gives a shallow embedding of the three source functions of the
Onto-X repository (`load_ontology`, `find_entity_id`,
`get_ancestors_with_depth`) and proves the specified properties about them.

Python dictionaries are modelled as association lists with insertion-order
preserving, overwrite-on-repeat insertion (`dictInsert`), first-match lookup
(`dictGet`), and the `defaultdict(list).extend` pattern (`dictExtend`).
Rows of the tabular source are modelled at the `csv.DictReader` output level:
each of the three named fields is an `Option String`, `none` standing for a
value missing from the record (Python `None`, on which `.strip()` raises).
The BFS of `get_ancestors_with_depth` is embedded with explicit fuel; the
development proves that the chosen fuel bound always suffices.
-/

/-- Python `str.strip()`: drop whitespace from both ends. Modelled over the
character list so that concrete instances reduce in the kernel. -/
def strTrim (s : String) : String :=
  ⟨((s.data.dropWhile Char.isWhitespace).reverse.dropWhile Char.isWhitespace).reverse⟩

/-- Python `str.lower()`. -/
def strToLower (s : String) : String := ⟨s.data.map Char.toLower⟩

/-- Helper for `splitPipe`: accumulate the current token (reversed). -/
def splitPipeAux : List Char → List Char → List String
  | [], acc => [⟨acc.reverse⟩]
  | c :: t, acc =>
    if c = '|' then ⟨acc.reverse⟩ :: splitPipeAux t [] else splitPipeAux t (c :: acc)

/-- Python `str.split('|')` (note `"".split('|') == ['']` and
`"A|".split('|') == ['A', '']`). -/
def splitPipe (s : String) : List String := splitPipeAux s.data []

/-- Python `dict.get`-style lookup in an association list (first match). -/
def dictGet {α : Type} : List (String × α) → String → Option α
  | [], _ => none
  | (k, v) :: t, x => if k = x then some v else dictGet t x

/-- Python `d[k] = v`: overwrite the binding in place if the key is present,
otherwise append it (insertion order preserved). -/
def dictInsert {α : Type} (k : String) (v : α) : List (String × α) → List (String × α)
  | [] => [(k, v)]
  | (k', v') :: t => if k' = k then (k, v) :: t else (k', v') :: dictInsert k v t

/-- Python `defaultdict(list)`'s `d[k].extend(vs)`: extend the list bound to
`k` in place, creating an empty binding first when the key is absent. -/
def dictExtend (k : String) (vs : List String) : List (String × List String) → List (String × List String)
  | [] => [(k, vs)]
  | (k', v') :: t => if k' = k then (k', v' ++ vs) :: t else (k', v') :: dictExtend k vs t

/-- The sentinel root identifier skipped by the traversal
(`"http://www.w3.org/2002/07/owl#Thing"` in `get_ancestors_with_depth`). -/
def owlThing : String := "http://www.w3.org/2002/07/owl#Thing"

/-- One record of the tabular source, as produced by `csv.DictReader`:
the three named fields, where `none` models a missing value (Python `None`). -/
structure Row where
  classId : Option String
  prefLabel : Option String
  parents : Option String
deriving Repr, DecidableEq

/-- The parents string computed by
`parents = row['Parents'].strip() if row['Parents'] else ''`:
a missing or empty (falsy) raw value yields `""`, otherwise the value is
stripped. -/
def parentsField (r : Row) : String :=
  match r.parents with
  | none => ""
  | some s => if s = "" then "" else strTrim s

/-- Does a record carry (trimmed) class identifier `t`? -/
def rowHasId (t : String) (r : Row) : Bool :=
  match r.classId with
  | some c => strTrim c = t
  | none => false

/-- The graph entry a single record produces: the parents string split on
`'|'` with each token trimmed, or the explicit empty list when the parents
string is empty. -/
def expectedGraphEntry (r : Row) : List String :=
  if parentsField r ≠ "" then (splitPipe (parentsField r)).map strTrim else []

/-- The loop body of `load_ontology`, processing the remaining rows with the
three accumulated structures (`id_to_label`, `label_to_id`, `graph`).
A row whose `Class ID` or `Preferred Label` value is missing makes the whole
load fail (Python: `None.strip()` raises `AttributeError`). -/
def loadAux : List Row → List (String × String) → List (String × String) →
    List (String × List String) →
    Except String (List (String × String) × List (String × String) × List (String × List String))
  | [], id_to_label, label_to_id, graph => .ok (id_to_label, label_to_id, graph)
  | row :: rest, id_to_label, label_to_id, graph =>
    match row.classId with
    | none => .error "row is missing the Class ID field"
    | some cid =>
      match row.prefLabel with
      | none => .error "row is missing the Preferred Label field"
      | some lab =>
        let class_id := strTrim cid
        let label := strTrim lab
        let parents := parentsField row
        let id_to_label' := dictInsert class_id label id_to_label
        let label_to_id' := dictInsert (strToLower label) class_id label_to_id
        let graph' :=
          if parents ≠ "" then
            dictExtend class_id ((splitPipe parents).map strTrim) graph
          else
            dictInsert class_id [] graph
        loadAux rest id_to_label' label_to_id' graph'

/-- The function `load_ontology`: fold the rows into the three lookup
structures, starting from empty ones. -/
def load_ontology (rows : List Row) :
    Except String (List (String × String) × List (String × String) × List (String × List String)) :=
  loadAux rows [] [] []

/-- The function `find_entity_id`: trim the query; return it verbatim when it is a key of
`id_to_label`; otherwise look the lowercased query up in `label_to_id`;
otherwise `none`. -/
def find_entity_id (query : String) (id_to_label : List (String × String))
    (label_to_id : List (String × String)) : Option String :=
  let q := strTrim query
  if (dictGet id_to_label q).isSome then some q
  else
    match dictGet label_to_id (strToLower q) with
    | some i => some i
    | none => none

/-- Python `graph.get(current_id, [])`. -/
def getParents (graph : List (String × List String)) (i : String) : List String :=
  (dictGet graph i).getD []

/-- The inner `for parent_id in graph.get(current_id, [])` loop of
`get_ancestors_with_depth`: skip the sentinel, skip visited ids, and for a
fresh id mark it visited, record its label (when it has one) at
`current_depth + 1`, and append it to the queue at `current_depth + 1`.
Returns the updated `(visited, relationships, queue)`. -/
def processParents (id_to_label : List (String × String)) :
    List String → Nat → List String → List (String × Nat) → List (String × Nat) →
    List String × List (String × Nat) × List (String × Nat)
  | [], _, visited, relationships, queue => (visited, relationships, queue)
  | parent_id :: rest, depth, visited, relationships, queue =>
    if parent_id = owlThing then
      processParents id_to_label rest depth visited relationships queue
    else if parent_id ∈ visited then
      processParents id_to_label rest depth visited relationships queue
    else
      let visited' := parent_id :: visited
      let relationships' :=
        match dictGet id_to_label parent_id with
        | some l => dictInsert l (depth + 1) relationships
        | none => relationships
      processParents id_to_label rest depth visited' relationships' (queue ++ [(parent_id, depth + 1)])

/-- The `while queue:` loop of `get_ancestors_with_depth`, with explicit fuel.
Returns the final `(visited, relationships)` pair, or `none` when the fuel
runs out before the queue empties. -/
def bfsAux (graph : List (String × List String)) (id_to_label : List (String × String)) :
    Nat → List (String × Nat) → List String → List (String × Nat) →
    Option (List String × List (String × Nat))
  | _, [], visited, relationships => some (visited, relationships)
  | 0, _ :: _, _, _ => none
  | fuel + 1, (current_id, current_depth) :: rest, visited, relationships =>
    match processParents id_to_label (getParents graph current_id) current_depth visited relationships rest with
    | (visited', relationships', queue') => bfsAux graph id_to_label fuel queue' visited' relationships'

/-- Fuel that always suffices for the BFS: one initial dequeue plus one for
every parent occurrence in the graph (each further enqueue consumes a fresh
parent occurrence). -/
def fuelBound (graph : List (String × List String)) : Nat :=
  (graph.map (fun p => p.2.length)).sum + 1

/-- Run `get_ancestors_with_depth`'s BFS from its initial state: queue
`[(class_id, 0)]`, visited `{class_id}`, empty result. -/
def bfsRun (class_id : String) (graph : List (String × List String))
    (id_to_label : List (String × String)) : Option (List String × List (String × Nat)) :=
  bfsAux graph id_to_label (fuelBound graph) [(class_id, 0)] [class_id] []

/-- The function `get_ancestors_with_depth`: the `relationships` dictionary produced by the
BFS (the source function's return value). -/
def get_ancestors_with_depth (class_id : String) (graph : List (String × List String))
    (id_to_label : List (String × String)) : List (String × Nat) :=
  ((bfsRun class_id graph id_to_label).map Prod.snd).getD []

/-- Predicate `RawReachN graph start n q`: there is a walk of exactly `n` parent edges
from `start` to `q` (no restriction at all — the literal "reachable by parent
edges" reading). -/
inductive RawReachN (graph : List (String × List String)) (start : String) : Nat → String → Prop where
  | refl : RawReachN graph start 0 start
  | step {n : Nat} {p q : String} : RawReachN graph start n p →
      q ∈ getParents graph p → RawReachN graph start (n + 1) q

/-- Predicate `ReachN graph start n q`: there is a walk of exactly `n` parent edges from
`start` to `q` in which every node after the start differs from the sentinel
`owlThing` — the reachability notion the traversal actually explores. -/
inductive ReachN (graph : List (String × List String)) (start : String) : Nat → String → Prop where
  | refl : ReachN graph start 0 start
  | step {n : Nat} {p q : String} : ReachN graph start n p →
      q ∈ getParents graph p → q ≠ owlThing → ReachN graph start (n + 1) q

/-- The id `q` is at sentinel-free distance exactly `n` from `start`: reachable in
`n` hops and in no fewer. -/
def IsDist (graph : List (String × List String)) (start : String) (q : String) (n : Nat) : Prop :=
  ReachN graph start n q ∧ ∀ m, m < n → ¬ ReachN graph start m q

/-- The loop invariant of the BFS in `get_ancestors_with_depth`.
`queue`, `visited` and `rel` are the current values of the Python locals
`queue`, `visited` and `relationships`; `s` is the starting `class_id`. -/
structure BfsInv (g : List (String × List String)) (idl : List (String × String)) (s : String)
    (queue : List (String × Nat)) (visited : List String) (rel : List (String × Nat)) : Prop where
  start_vis : s ∈ visited
  sorted : queue.Pairwise (fun a b => a.2 ≤ b.2)
  tight : ∀ a ∈ queue, ∀ b ∈ queue, a.2 ≤ b.2 + 1
  qdist : ∀ a ∈ queue, IsDist g s a.1 a.2
  qvis : ∀ a ∈ queue, a.1 ∈ visited
  vis_reach : ∀ v ∈ visited, ∃ n, ReachN g s n v
  deep_in_queue : ∀ c d rest, queue = (c, d) :: rest →
    ∀ v ∈ visited, ∀ n, IsDist g s v n → d < n → (v, n) ∈ queue
  frontier_vis : ∀ c d rest, queue = (c, d) :: rest →
    ∀ q n, IsDist g s q n → n ≤ d → q ∈ visited
  frontier_pred : ∀ c d rest, queue = (c, d) :: rest →
    ∀ q n, q ∉ visited → IsDist g s q n → n ≤ d + 1 →
      ∃ p, (p, n - 1) ∈ queue ∧ q ∈ getParents g p ∧ q ≠ owlThing
  expanded : ∀ v ∈ visited,
    (∃ a ∈ queue, a.1 = v) ∨ (∀ q ∈ getParents g v, q ≠ owlThing → q ∈ visited)
  rel_sound : ∀ e ∈ rel, ∃ q, q ∈ visited ∧ q ≠ s ∧ dictGet idl q = some e.1 ∧ IsDist g s q e.2
  rel_complete : ∀ q ∈ visited, q ≠ s → ∀ l, dictGet idl q = some l → (dictGet rel l).isSome
  sentinel_free : s ≠ owlThing → owlThing ∉ visited

/-- What holds of the locals `visited` and `relationships` when the BFS loop
of `get_ancestors_with_depth` has emptied its queue. -/
structure FinalState (g : List (String × List String)) (idl : List (String × String)) (s : String)
    (v : List String) (r : List (String × Nat)) : Prop where
  start_mem : s ∈ v
  mem_reach : ∀ x ∈ v, ∃ n, ReachN g s n x
  reach_mem : ∀ x n, ReachN g s n x → x ∈ v
  rel_sound : ∀ e ∈ r, ∃ q, q ∈ v ∧ q ≠ s ∧ dictGet idl q = some e.1 ∧ IsDist g s q e.2
  rel_complete : ∀ q ∈ v, q ≠ s → ∀ l, dictGet idl q = some l → (dictGet r l).isSome
  sentinel_free : s ≠ owlThing → owlThing ∉ v

/-! ## Dictionary lemmas -/

theorem dictGet_mem {α : Type} {d : List (String × α)} {k : String} {v : α}
    (h : dictGet d k = some v) : (k, v) ∈ d := by
  induction d with
  | nil => simp [dictGet] at h
  | cons e t ih =>
    obtain ⟨k', v'⟩ := e
    by_cases hk : k' = k
    · subst hk
      simp [dictGet] at h
      simp [h]
    · simp [dictGet, hk] at h
      exact List.mem_cons_of_mem _ (ih h)

theorem dictGet_insert_self {α : Type} (d : List (String × α)) (k : String) (v : α) :
    dictGet (dictInsert k v d) k = some v := by
  induction d with
  | nil => simp [dictInsert, dictGet]
  | cons e t ih =>
    obtain ⟨k', v'⟩ := e
    by_cases hk : k' = k
    · simp [dictInsert, hk, dictGet]
    · simp [dictInsert, hk, dictGet, ih]

theorem dictGet_insert_ne {α : Type} (d : List (String × α)) {k k' : String} (v : α)
    (h : k' ≠ k) : dictGet (dictInsert k v d) k' = dictGet d k' := by
  have hk' : ¬ k = k' := fun hh => h hh.symm
  induction d with
  | nil => simp [dictInsert, dictGet, hk']
  | cons e t ih =>
    obtain ⟨k₀, v₀⟩ := e
    by_cases hk : k₀ = k
    · subst hk
      simp [dictInsert, dictGet, hk']
    · simp [dictInsert, hk, dictGet, ih]

theorem isSome_dictGet_insert {α : Type} (d : List (String × α)) (k k' : String) (v : α)
    (h : (dictGet d k').isSome) : (dictGet (dictInsert k v d) k').isSome := by
  by_cases hk : k' = k
  · subst hk
    simp [dictGet_insert_self]
  · rwa [dictGet_insert_ne _ _ hk]

theorem mem_dictInsert {α : Type} {d : List (String × α)} {k : String} {v : α}
    {e : String × α} (h : e ∈ dictInsert k v d) : e = (k, v) ∨ e ∈ d := by
  induction d with
  | nil => simpa [dictInsert] using h
  | cons e' t ih =>
    obtain ⟨k', v'⟩ := e'
    by_cases hk : k' = k
    · simp [dictInsert, hk] at h
      rcases h with h | h
      · exact Or.inl (by simp [h])
      · exact Or.inr (List.mem_cons_of_mem _ h)
    · simp [dictInsert, hk] at h
      rcases h with h | h
      · exact Or.inr (by simp [h])
      · rcases ih h with h' | h'
        · exact Or.inl h'
        · exact Or.inr (List.mem_cons_of_mem _ h')

theorem dictGet_extend_ne (d : List (String × List String)) {k k' : String} (vs : List String)
    (h : k' ≠ k) : dictGet (dictExtend k vs d) k' = dictGet d k' := by
  have hk' : ¬ k = k' := fun hh => h hh.symm
  induction d with
  | nil => simp [dictExtend, dictGet, hk']
  | cons e t ih =>
    obtain ⟨k₀, v₀⟩ := e
    by_cases hk : k₀ = k
    · subst hk
      simp [dictExtend, dictGet, hk']
    · simp [dictExtend, hk, dictGet, ih]

theorem dictGet_extend_none (d : List (String × List String)) (k : String) (vs : List String)
    (h : dictGet d k = none) : dictGet (dictExtend k vs d) k = some vs := by
  induction d with
  | nil => simp [dictExtend, dictGet]
  | cons e t ih =>
    obtain ⟨k₀, v₀⟩ := e
    by_cases hk : k₀ = k
    · subst hk
      simp [dictGet] at h
    · simp [dictGet, hk] at h
      simp [dictExtend, hk, dictGet, ih h]

/-! ## Reachability lemmas -/

theorem reachN_zero_iff (g : List (String × List String)) (s q : String) :
    ReachN g s 0 q ↔ q = s := by
  constructor
  · intro h
    cases h
    rfl
  · rintro rfl
    exact ReachN.refl

theorem reachN_succ_iff (g : List (String × List String)) (s q : String) (n : Nat) :
    ReachN g s (n + 1) q ↔ ∃ p, ReachN g s n p ∧ q ∈ getParents g p ∧ q ≠ owlThing := by
  constructor
  · intro h
    cases h with
    | step hp hmem hne => exact ⟨_, hp, hmem, hne⟩
  · rintro ⟨p, hp, hmem, hne⟩
    exact ReachN.step hp hmem hne

theorem isDist_unique {g : List (String × List String)} {s q : String} {n m : Nat}
    (hn : IsDist g s q n) (hm : IsDist g s q m) : n = m := by
  rcases Nat.lt_trichotomy n m with h | h | h
  · exact absurd hn.1 (hm.2 n h)
  · exact h
  · exact absurd hm.1 (hn.2 m h)

theorem exists_isDist {g : List (String × List String)} {s q : String} {n : Nat}
    (h : ReachN g s n q) : ∃ m, m ≤ n ∧ IsDist g s q m := by
  induction n using Nat.strong_induction_on with
  | _ n ih =>
    by_cases hmin : ∀ m, m < n → ¬ ReachN g s m q
    · exact ⟨n, Nat.le_refl n, h, hmin⟩
    · push_neg at hmin
      obtain ⟨m, hm, hreach⟩ := hmin
      obtain ⟨m', hm', hd⟩ := ih m hm hreach
      exact ⟨m', Nat.le_trans hm' (Nat.le_of_lt hm), hd⟩

theorem isDist_start (g : List (String × List String)) (s : String) : IsDist g s s 0 :=
  ⟨ReachN.refl, fun m hm => absurd hm (Nat.not_lt_zero m)⟩

theorem isDist_zero_iff (g : List (String × List String)) (s q : String) :
    IsDist g s q 0 ↔ q = s := by
  constructor
  · intro h
    exact (reachN_zero_iff g s q).mp h.1
  · rintro rfl
    exact isDist_start _ _

theorem isDist_ne_start {g : List (String × List String)} {s q : String} {n : Nat}
    (h : IsDist g s q n) (hq : q ≠ s) : 0 < n := by
  rcases Nat.eq_zero_or_pos n with rfl | hpos
  · exact absurd ((isDist_zero_iff g s q).mp h) hq
  · exact hpos

theorem isDist_pred {g : List (String × List String)} {s q : String} {n : Nat}
    (h : IsDist g s q (n + 1)) :
    ∃ p, IsDist g s p n ∧ q ∈ getParents g p ∧ q ≠ owlThing := by
  obtain ⟨hr, hmin⟩ := h
  rcases (reachN_succ_iff g s q n).mp hr with ⟨p, hp, hmem, hne⟩
  obtain ⟨m, hm, hd⟩ := exists_isDist hp
  rcases Nat.lt_or_ge m n with hlt | hge
  · exact absurd (ReachN.step hd.1 hmem hne) (hmin (m + 1) (Nat.succ_lt_succ hlt))
  · exact ⟨p, by rwa [Nat.le_antisymm hm hge] at hd, hmem, hne⟩

/-! ## The inner parent loop: full characterization -/

theorem processParents_spec (idl : List (String × String)) (d : Nat) :
    ∀ (parents visited : List String) (rel queue : List (String × Nat))
      (v' : List String) (r' q' : List (String × Nat)),
    processParents idl parents d visited rel queue = (v', r', q') →
    ∃ newIds : List String,
      v' = newIds.reverse ++ visited ∧
      q' = queue ++ newIds.map (fun x => (x, d + 1)) ∧
      newIds.Nodup ∧
      (∀ x ∈ newIds, x ∈ parents ∧ x ∉ visited ∧ x ≠ owlThing) ∧
      (∀ x ∈ parents, x ≠ owlThing → x ∈ v') ∧
      (∀ e ∈ r', e ∈ rel ∨ ∃ x ∈ newIds, dictGet idl x = some e.1 ∧ e.2 = d + 1) ∧
      (∀ l, (dictGet rel l).isSome → (dictGet r' l).isSome) ∧
      (∀ x ∈ newIds, ∀ l, dictGet idl x = some l → (dictGet r' l).isSome) := by
  intro parents
  induction parents with
  | nil =>
    intro visited rel queue v' r' q' h
    simp only [processParents, Prod.mk.injEq] at h
    obtain ⟨hv, hr, hq⟩ := h
    subst hv; subst hr; subst hq
    exact ⟨[], by simp, by simp, by simp, by simp, by simp, by simp, by simp, by simp⟩
  | cons p rest ih =>
    intro visited rel queue v' r' q' h
    by_cases hsent : p = owlThing
    · rw [show processParents idl (p :: rest) d visited rel queue =
          processParents idl rest d visited rel queue by simp [processParents, hsent]] at h
      obtain ⟨newIds, h1, h2, h3, h4, h5, h6, h7, h8⟩ := ih visited rel queue v' r' q' h
      refine ⟨newIds, h1, h2, h3, ?_, ?_, h6, h7, h8⟩
      · intro x hx
        obtain ⟨ha, hb, hc⟩ := h4 x hx
        exact ⟨List.mem_cons_of_mem _ ha, hb, hc⟩
      · intro x hx hxo
        rcases List.mem_cons.mp hx with rfl | hx'
        · exact absurd hsent hxo
        · exact h5 x hx' hxo
    · by_cases hvis : p ∈ visited
      · rw [show processParents idl (p :: rest) d visited rel queue =
            processParents idl rest d visited rel queue by simp [processParents, hsent, hvis]] at h
        obtain ⟨newIds, h1, h2, h3, h4, h5, h6, h7, h8⟩ := ih visited rel queue v' r' q' h
        refine ⟨newIds, h1, h2, h3, ?_, ?_, h6, h7, h8⟩
        · intro x hx
          obtain ⟨ha, hb, hc⟩ := h4 x hx
          exact ⟨List.mem_cons_of_mem _ ha, hb, hc⟩
        · intro x hx hxo
          rcases List.mem_cons.mp hx with rfl | hx'
          · rw [h1]
            exact List.mem_append_right _ hvis
          · exact h5 x hx' hxo
      · -- `p` is fresh: it is marked visited, possibly recorded, and enqueued.
        cases hidl : dictGet idl p with
        | none =>
          rw [show processParents idl (p :: rest) d visited rel queue =
              processParents idl rest d (p :: visited) rel (queue ++ [(p, d + 1)]) by
                simp [processParents, hsent, hvis, hidl]] at h
          obtain ⟨newIds, h1, h2, h3, h4, h5, h6, h7, h8⟩ :=
            ih (p :: visited) rel (queue ++ [(p, d + 1)]) v' r' q' h
          refine ⟨p :: newIds, ?_, ?_, ?_, ?_, ?_, ?_, h7, ?_⟩
          · rw [h1]
            simp
          · rw [h2]
            simp
          · refine List.nodup_cons.mpr ⟨?_, h3⟩
            intro hp
            exact (h4 p hp).2.1 (List.mem_cons_self _ _)
          · intro x hx
            rcases List.mem_cons.mp hx with rfl | hx'
            · exact ⟨List.mem_cons_self _ _, hvis, hsent⟩
            · obtain ⟨ha, hb, hc⟩ := h4 x hx'
              exact ⟨List.mem_cons_of_mem _ ha,
                fun hmem => hb (List.mem_cons_of_mem _ hmem), hc⟩
          · intro x hx hxo
            rcases List.mem_cons.mp hx with rfl | hx'
            · rw [h1]
              exact List.mem_append_right _ (List.mem_cons_self _ _)
            · exact h5 x hx' hxo
          · intro e he
            rcases h6 e he with h' | ⟨x, hx, hl⟩
            · exact Or.inl h'
            · exact Or.inr ⟨x, List.mem_cons_of_mem _ hx, hl⟩
          · intro x hx l hl
            rcases List.mem_cons.mp hx with rfl | hx'
            · rw [hidl] at hl
              exact absurd hl (by simp)
            · exact h8 x hx' l hl
        | some lab =>
          rw [show processParents idl (p :: rest) d visited rel queue =
              processParents idl rest d (p :: visited) (dictInsert lab (d + 1) rel)
                (queue ++ [(p, d + 1)]) by simp [processParents, hsent, hvis, hidl]] at h
          obtain ⟨newIds, h1, h2, h3, h4, h5, h6, h7, h8⟩ :=
            ih (p :: visited) (dictInsert lab (d + 1) rel) (queue ++ [(p, d + 1)]) v' r' q' h
          refine ⟨p :: newIds, ?_, ?_, ?_, ?_, ?_, ?_, ?_, ?_⟩
          · rw [h1]
            simp
          · rw [h2]
            simp
          · refine List.nodup_cons.mpr ⟨?_, h3⟩
            intro hp
            exact (h4 p hp).2.1 (List.mem_cons_self _ _)
          · intro x hx
            rcases List.mem_cons.mp hx with rfl | hx'
            · exact ⟨List.mem_cons_self _ _, hvis, hsent⟩
            · obtain ⟨ha, hb, hc⟩ := h4 x hx'
              exact ⟨List.mem_cons_of_mem _ ha,
                fun hmem => hb (List.mem_cons_of_mem _ hmem), hc⟩
          · intro x hx hxo
            rcases List.mem_cons.mp hx with rfl | hx'
            · rw [h1]
              exact List.mem_append_right _ (List.mem_cons_self _ _)
            · exact h5 x hx' hxo
          · intro e he
            rcases h6 e he with h' | ⟨x, hx, hl⟩
            · rcases mem_dictInsert h' with rfl | h''
              · exact Or.inr ⟨p, List.mem_cons_self _ _, by simp [hidl]⟩
              · exact Or.inl h''
            · exact Or.inr ⟨x, List.mem_cons_of_mem _ hx, hl⟩
          · intro l hl
            exact h7 l (isSome_dictGet_insert _ _ _ _ hl)
          · intro x hx l hl
            rcases List.mem_cons.mp hx with rfl | hx'
            · rw [hidl] at hl
              injection hl with hl
              subst hl
              exact h7 _ (by simp [dictGet_insert_self])
            · exact h8 x hx' l hl

/-! ## Termination: the fuel bound always suffices -/

theorem length_filter_ne_lt {Q : List String} {x : String} (hx : x ∈ Q) :
    (Q.filter (fun y => decide (y ≠ x))).length + 1 ≤ Q.length := by
  induction Q with
  | nil => cases hx
  | cons a t ih =>
    by_cases ha : a = x
    · subst ha
      have hfil : (a :: t).filter (fun y => decide (y ≠ a)) =
          t.filter (fun y => decide (y ≠ a)) := by simp
      rw [hfil]
      have := List.length_filter_le (fun y => decide (y ≠ a)) t
      simp only [List.length_cons]
      omega
    · have hx' : x ∈ t := by
        rcases List.mem_cons.mp hx with rfl | h
        · exact absurd rfl ha
        · exact h
      have hfil : (a :: t).filter (fun y => decide (y ≠ x)) =
          a :: t.filter (fun y => decide (y ≠ x)) := by
        simp [List.filter_cons, ha]
      have := ih hx'
      rw [hfil]
      simp only [List.length_cons]
      omega

theorem filter_cons_vis {P visited : List String} {x : String} (hxP : x ∈ P)
    (hxv : x ∉ visited) :
    (P.filter (fun y => decide (y ∉ x :: visited))).length + 1 ≤
    (P.filter (fun y => decide (y ∉ visited))).length := by
  have hsplit : P.filter (fun y => decide (y ∉ x :: visited)) =
      (P.filter (fun y => decide (y ∉ visited))).filter (fun y => decide (y ≠ x)) := by
    rw [List.filter_filter]
    apply List.filter_congr
    intro y _
    by_cases h1 : y = x <;> by_cases h2 : y ∈ visited <;>
      simp [List.mem_cons, h1, h2]
  rw [hsplit]
  apply length_filter_ne_lt
  simp only [List.mem_filter, decide_eq_true_eq]
  exact ⟨hxP, hxv⟩

theorem filter_new_le (P : List String) :
    ∀ (newIds visited : List String), newIds.Nodup →
    (∀ x ∈ newIds, x ∈ P ∧ x ∉ visited) →
    (P.filter (fun y => decide (y ∉ newIds.reverse ++ visited))).length + newIds.length ≤
    (P.filter (fun y => decide (y ∉ visited))).length := by
  intro newIds
  induction newIds with
  | nil => intro visited _ _; simp
  | cons x t ih =>
    intro visited hnodup hmem
    have hrw : (x :: t).reverse ++ visited = t.reverse ++ (x :: visited) := by
      rw [List.reverse_cons, List.append_assoc]
      rfl
    rw [hrw]
    have hx := hmem x (List.mem_cons_self _ _)
    have ht : ∀ y ∈ t, y ∈ P ∧ y ∉ x :: visited := by
      intro y hy
      obtain ⟨hyP, hyv⟩ := hmem y (List.mem_cons_of_mem _ hy)
      refine ⟨hyP, ?_⟩
      intro hmem'
      rcases List.mem_cons.mp hmem' with rfl | h
      · exact (List.nodup_cons.mp hnodup).1 hy
      · exact hyv h
    have h1 := ih (x :: visited) (List.nodup_cons.mp hnodup).2 ht
    have h2 := filter_cons_vis hx.1 hx.2
    simp only [List.length_cons]
    omega

theorem bfsAux_total (g : List (String × List String)) (idl : List (String × String))
    (P : List String) (hP : ∀ cur : String, ∀ x ∈ getParents g cur, x ∈ P) :
    ∀ (fuel : Nat) (queue : List (String × Nat)) (visited : List String)
      (rel : List (String × Nat)),
    queue.length + (P.filter (fun y => decide (y ∉ visited))).length ≤ fuel →
    ∃ out, bfsAux g idl fuel queue visited rel = some out := by
  intro fuel
  induction fuel with
  | zero =>
    intro queue visited rel h
    cases queue with
    | nil => exact ⟨_, rfl⟩
    | cons a rest => simp at h
  | succ fuel ih =>
    intro queue visited rel h
    cases queue with
    | nil => exact ⟨_, rfl⟩
    | cons a rest =>
      obtain ⟨c, d⟩ := a
      rcases hpp : processParents idl (getParents g c) d visited rel rest with ⟨v', r', q'⟩
      have hstep : bfsAux g idl (fuel + 1) ((c, d) :: rest) visited rel =
          bfsAux g idl fuel q' v' r' := by
        simp [bfsAux, hpp]
      obtain ⟨newIds, h1, h2, h3, h4, _, _, _, _⟩ :=
        processParents_spec idl d (getParents g c) visited rel rest v' r' q' hpp
      have hcount := filter_new_le P newIds visited h3
        (fun x hx => ⟨hP c x (h4 x hx).1, (h4 x hx).2.1⟩)
      rw [← h1] at hcount
      have hq : q'.length = rest.length + newIds.length := by
        rw [h2]
        simp
      have hbound : q'.length + (P.filter (fun y => decide (y ∉ v'))).length ≤ fuel := by
        simp only [List.length_cons] at h
        omega
      obtain ⟨out, hout⟩ := ih q' v' r' hbound
      exact ⟨out, by rw [hstep, hout]⟩

theorem bfsRun_total (s : String) (g : List (String × List String))
    (idl : List (String × String)) : ∃ v r, bfsRun s g idl = some (v, r) := by
  have hP : ∀ cur : String, ∀ x ∈ getParents g cur, x ∈ (g.map Prod.snd).flatten := by
    intro cur x hx
    unfold getParents at hx
    cases hg : dictGet g cur with
    | none => rw [hg] at hx; cases hx
    | some l =>
      rw [hg] at hx
      exact List.mem_flatten.mpr ⟨l, List.mem_map.mpr ⟨(cur, l), dictGet_mem hg, rfl⟩, hx⟩
  have hlen : ((g.map Prod.snd).flatten.filter
      (fun y => decide (y ∉ ([s] : List String)))).length ≤
      (g.map (fun p => p.2.length)).sum := by
    calc ((g.map Prod.snd).flatten.filter (fun y => decide (y ∉ ([s] : List String)))).length
        ≤ (g.map Prod.snd).flatten.length := List.length_filter_le _ _
      _ = (g.map (fun p => p.2.length)).sum := by
          rw [List.length_flatten, List.map_map]
          rfl
  obtain ⟨out, hout⟩ := bfsAux_total g idl ((g.map Prod.snd).flatten) hP (fuelBound g)
    [(s, 0)] [s] [] (by simp only [fuelBound, List.length_cons, List.length_nil]; omega)
  exact ⟨out.1, out.2, by rw [bfsRun, hout]⟩

/-! ## The BFS invariant -/

theorem bfsInv_init (g : List (String × List String)) (idl : List (String × String))
    (s : String) : BfsInv g idl s [(s, 0)] [s] [] := by
  refine ⟨?_, ?_, ?_, ?_, ?_, ?_, ?_, ?_, ?_, ?_, ?_, ?_, ?_⟩
  · exact List.mem_singleton.mpr rfl
  · simp
  · intro a ha b hb
    simp only [List.mem_singleton] at ha hb
    subst ha; subst hb
    omega
  · intro a ha
    simp only [List.mem_singleton] at ha
    subst ha
    exact isDist_start g s
  · intro a ha
    simp only [List.mem_singleton] at ha
    subst ha
    exact List.mem_singleton.mpr rfl
  · intro v hv
    simp only [List.mem_singleton] at hv
    subst hv
    exact ⟨0, ReachN.refl⟩
  · intro c d rest hq v hv n hdist hlt
    simp only [List.cons.injEq, Prod.mk.injEq] at hq
    obtain ⟨⟨rfl, rfl⟩, rfl⟩ := hq
    simp only [List.mem_singleton] at hv
    subst hv
    have := isDist_unique hdist (isDist_start _ _)
    omega
  · intro c d rest hq q n hdist hle
    simp only [List.cons.injEq, Prod.mk.injEq] at hq
    obtain ⟨⟨rfl, rfl⟩, rfl⟩ := hq
    have hn : n = 0 := Nat.le_zero.mp hle
    subst hn
    exact List.mem_singleton.mpr ((isDist_zero_iff _ _ q).mp hdist)
  · intro c d rest hq q n hnv hdist hle
    simp only [List.cons.injEq, Prod.mk.injEq] at hq
    obtain ⟨⟨rfl, rfl⟩, rfl⟩ := hq
    have hq_ne : q ≠ s := by
      intro h
      exact hnv (h ▸ List.mem_singleton.mpr rfl)
    have hpos : 0 < n := isDist_ne_start hdist hq_ne
    have hn : n = 1 := by omega
    subst hn
    obtain ⟨p, hp, hmem, hne⟩ := isDist_pred hdist
    have hps := (isDist_zero_iff _ _ p).mp hp
    subst hps
    exact ⟨p, List.mem_singleton.mpr rfl, hmem, hne⟩
  · intro v hv
    simp only [List.mem_singleton] at hv
    subst hv
    exact Or.inl ⟨(v, 0), List.mem_singleton.mpr rfl, rfl⟩
  · intro e he
    cases he
  · intro q hq hqs l hl
    simp only [List.mem_singleton] at hq
    exact absurd hq hqs
  · intro hs hmem
    simp only [List.mem_singleton] at hmem
    exact hs hmem.symm

theorem bfsInv_step {g : List (String × List String)} {idl : List (String × String)}
    {s c : String} {d : Nat} {rest : List (String × Nat)} {visited : List String}
    {rel : List (String × Nat)} {v' : List String} {r' q' : List (String × Nat)}
    (inv : BfsInv g idl s ((c, d) :: rest) visited rel)
    (hpp : processParents idl (getParents g c) d visited rel rest = (v', r', q')) :
    BfsInv g idl s q' v' r' := by
  obtain ⟨newIds, h1, h2, h3, h4, h5, h6, h7, h8⟩ :=
    processParents_spec idl d (getParents g c) visited rel rest v' r' q' hpp
  have hdc : IsDist g s c d := inv.qdist (c, d) (List.mem_cons_self _ _)
  have hvsub : ∀ x ∈ visited, x ∈ v' := by
    intro x hx
    rw [h1]
    exact List.mem_append_right _ hx
  have hmem_v' : ∀ x, x ∈ v' ↔ x ∈ newIds ∨ x ∈ visited := by
    intro x
    rw [h1]
    simp [List.mem_append, List.mem_reverse]
  have hnew_dist : ∀ x ∈ newIds, IsDist g s x (d + 1) := by
    intro x hx
    obtain ⟨hp, hnv, hno⟩ := h4 x hx
    refine ⟨ReachN.step hdc.1 hp hno, ?_⟩
    intro m hm hr
    obtain ⟨m', hm'le, hd'⟩ := exists_isDist hr
    exact hnv (inv.frontier_vis c d rest rfl x m' hd' (by omega))
  have hnews_mem : ∀ x ∈ newIds, (x, d + 1) ∈ q' := by
    intro x hx
    rw [h2]
    exact List.mem_append_right _ (List.mem_map.mpr ⟨x, hx, rfl⟩)
  have hq'_cases : ∀ a ∈ q', a ∈ rest ∨ ∃ x ∈ newIds, a = (x, d + 1) := by
    intro a ha
    rw [h2] at ha
    rcases List.mem_append.mp ha with h | h
    · exact Or.inl h
    · obtain ⟨x, hx, hxa⟩ := List.mem_map.mp h
      exact Or.inr ⟨x, hx, hxa.symm⟩
  have hrest_lb : ∀ a ∈ rest, d ≤ a.2 := by
    intro a ha
    exact (List.pairwise_cons.mp inv.sorted).1 a ha
  have hrest_ub : ∀ a ∈ rest, a.2 ≤ d + 1 := by
    intro a ha
    exact inv.tight a (List.mem_cons_of_mem _ ha) (c, d) (List.mem_cons_self _ _)
  have hq'_lb : ∀ a ∈ q', d ≤ a.2 := by
    intro a ha
    rcases hq'_cases a ha with h | ⟨x, _, rfl⟩
    · exact hrest_lb a h
    · omega
  have hq'_ub : ∀ a ∈ q', a.2 ≤ d + 1 := by
    intro a ha
    rcases hq'_cases a ha with h | ⟨x, _, rfl⟩
    · exact hrest_ub a h
    · omega
  have hsorted : q'.Pairwise (fun a b => a.2 ≤ b.2) := by
    rw [h2]
    refine List.pairwise_append.mpr ⟨(List.pairwise_cons.mp inv.sorted).2, ?_, ?_⟩
    · exact List.Pairwise.map _ (fun a b _ => Nat.le_refl (d + 1)) h3
    · intro a ha b hb
      obtain ⟨x, _, hxb⟩ := List.mem_map.mp hb
      rw [← hxb]
      exact hrest_ub a ha
  have hfrontier_pred : ∀ (c' : String) (d' : Nat) (rest' : List (String × Nat)),
      q' = (c', d') :: rest' → ∀ q n, q ∉ v' → IsDist g s q n → n ≤ d' + 1 →
      ∃ p, (p, n - 1) ∈ q' ∧ q ∈ getParents g p ∧ q ≠ owlThing := by
    intro c' d' rest' hq q n hqnv hdist hle
    have hd'_ub : d' ≤ d + 1 := hq'_ub (c', d') (hq ▸ List.mem_cons_self _ _)
    have hd'_lb : d ≤ d' := hq'_lb (c', d') (hq ▸ List.mem_cons_self _ _)
    have hqnvis : q ∉ visited := fun h => hqnv (hvsub q h)
    rcases Nat.lt_or_ge n (d + 2) with hcase | hcase
    · -- still within the old frontier's reach
      obtain ⟨p, hpq, hpe, hpo⟩ :=
        inv.frontier_pred c d rest rfl q n hqnvis hdist (by omega)
      rcases List.mem_cons.mp hpq with heq | hmem
      · -- the predecessor was the just-expanded node: `q` got visited
        have hpc : p = c := congrArg Prod.fst heq
        subst hpc
        exact absurd (h5 q hpe hpo) hqnv
      · refine ⟨p, ?_, hpe, hpo⟩
        rw [h2]
        exact List.mem_append_left _ hmem
    · -- one level deeper: the predecessor sits at distance d + 1
      have hn : n = d + 2 := by omega
      have hd' : d' = d + 1 := by omega
      obtain ⟨p, hp, hpe, hpo⟩ := isDist_pred (show IsDist g s q (d + 1 + 1) by rw [← hn] at *; exact hdist)
      have hp_vis : p ∈ v' := by
        by_contra hpnv
        have hpnvis : p ∈ visited → False := fun h => hpnv (hvsub p h)
        obtain ⟨p₀, hp₀q, hp₀e, hp₀o⟩ :=
          inv.frontier_pred c d rest rfl p (d + 1) hpnvis hp (by omega)
        rcases List.mem_cons.mp hp₀q with heq | hmem
        · have : p₀ = c := congrArg Prod.fst heq
          subst this
          exact hpnv (h5 p hp₀e hp₀o)
        · have hin : (p₀, d + 1 - 1) ∈ q' := by
            rw [h2]
            exact List.mem_append_left _ hmem
          have := hq'_lb _ hin
          rw [hq] at hin
          rcases List.mem_cons.mp hin with heq' | hmem'
          · have : d + 1 - 1 = d' := congrArg Prod.snd heq'
            omega
          · have := (List.pairwise_cons.mp (hq ▸ hsorted)).1 _ hmem'
            simp only at this
            omega
      rcases (hmem_v' p).mp hp_vis with hpn | hpv
      · refine ⟨p, ?_, hpe, hpo⟩
        have := hnews_mem p hpn
        simpa [hn] using this
      · have := inv.deep_in_queue c d rest rfl p hpv (d + 1) hp (by omega)
        rcases List.mem_cons.mp this with heq | hmem
        · have : d + 1 = d := congrArg Prod.snd heq
          omega
        · refine ⟨p, ?_, hpe, hpo⟩
          have hin : (p, d + 1) ∈ q' := by
            rw [h2]
            exact List.mem_append_left _ hmem
          simpa [hn] using hin
  refine ⟨?_, hsorted, ?_, ?_, ?_, ?_, ?_, ?_, hfrontier_pred, ?_, ?_, ?_, ?_⟩
  · exact hvsub s inv.start_vis
  · intro a ha b hb
    have := hq'_ub a ha
    have := hq'_lb b hb
    omega
  · intro a ha
    rcases hq'_cases a ha with h | ⟨x, hx, rfl⟩
    · exact inv.qdist a (List.mem_cons_of_mem _ h)
    · exact hnew_dist x hx
  · intro a ha
    rcases hq'_cases a ha with h | ⟨x, hx, rfl⟩
    · exact hvsub _ (inv.qvis a (List.mem_cons_of_mem _ h))
    · exact (hmem_v' x).mpr (Or.inl hx)
  · intro v hv
    rcases (hmem_v' v).mp hv with h | h
    · exact ⟨d + 1, (hnew_dist v h).1⟩
    · exact inv.vis_reach v h
  · -- deep_in_queue
    intro c' d' rest' hq v hv n hdist hlt
    have hd'_lb : d ≤ d' := hq'_lb (c', d') (hq ▸ List.mem_cons_self _ _)
    rcases (hmem_v' v).mp hv with h | h
    · have hn : n = d + 1 := isDist_unique hdist (hnew_dist v h)
      subst hn
      exact hnews_mem v h
    · have := inv.deep_in_queue c d rest rfl v h n hdist (by omega)
      rcases List.mem_cons.mp this with heq | hmem
      · have : n = d := congrArg Prod.snd heq
        omega
      · rw [h2]
        exact List.mem_append_left _ hmem
  · -- frontier_vis
    intro c' d' rest' hq q n hdist hle
    by_contra hqnv
    have hq_ne : q ≠ s := by
      intro h
      exact hqnv (h ▸ hvsub s inv.start_vis)
    have hpos : 0 < n := isDist_ne_start hdist hq_ne
    obtain ⟨p, hpq, _, _⟩ := hfrontier_pred c' d' rest' hq q n hqnv hdist (by omega)
    rw [hq] at hpq
    rcases List.mem_cons.mp hpq with heq | hmem
    · have : n - 1 = d' := congrArg Prod.snd heq
      omega
    · have := (List.pairwise_cons.mp (hq ▸ hsorted)).1 _ hmem
      simp only at this
      omega
  · -- expanded
    intro v hv
    rcases (hmem_v' v).mp hv with h | h
    · exact Or.inl ⟨(v, d + 1), hnews_mem v h, rfl⟩
    · rcases inv.expanded v h with ⟨a, ha, hav⟩ | hexp
      · rcases List.mem_cons.mp ha with heq | hmem
        · subst heq
          simp only at hav
          subst hav
          right
          intro q hq hqo
          exact h5 q hq hqo
        · left
          refine ⟨a, ?_, hav⟩
          rw [h2]
          exact List.mem_append_left _ hmem
      · right
        intro q hq hqo
        exact hvsub q (hexp q hq hqo)
  · -- rel_sound
    intro e he
    rcases h6 e he with h | ⟨x, hx, hxl, hx2⟩
    · obtain ⟨q, hq, hqs, hql, hqd⟩ := inv.rel_sound e h
      exact ⟨q, hvsub q hq, hqs, hql, hqd⟩
    · refine ⟨x, (hmem_v' x).mpr (Or.inl hx), ?_, hxl, ?_⟩
      · intro hxs
        exact (h4 x hx).2.1 (hxs ▸ inv.start_vis)
      · rw [hx2]
        exact hnew_dist x hx
  · -- rel_complete
    intro q hq hqs l hl
    rcases (hmem_v' q).mp hq with h | h
    · exact h8 q h l hl
    · exact h7 l (inv.rel_complete q h hqs l hl)
  · -- sentinel_free
    intro hs hmem
    rcases (hmem_v' owlThing).mp hmem with h | h
    · exact (h4 owlThing h).2.2 rfl
    · exact inv.sentinel_free hs h

/-! ## From the invariant to the final state -/

theorem bfsInv_terminal {g : List (String × List String)} {idl : List (String × String)}
    {s : String} {visited : List String} {rel : List (String × Nat)}
    (inv : BfsInv g idl s [] visited rel) : FinalState g idl s visited rel := by
  have hreach : ∀ x (n : Nat), ReachN g s n x → x ∈ visited := by
    intro x n h
    induction h with
    | refl => exact inv.start_vis
    | step hp hmem hne ihp =>
      rcases inv.expanded _ ihp with ⟨a, ha, _⟩ | hexp
      · cases ha
      · exact hexp _ hmem hne
  exact ⟨inv.start_vis, inv.vis_reach, hreach, inv.rel_sound, inv.rel_complete,
    inv.sentinel_free⟩

theorem bfsAux_final (g : List (String × List String)) (idl : List (String × String))
    (s : String) :
    ∀ (fuel : Nat) (queue : List (String × Nat)) (visited : List String)
      (rel : List (String × Nat)) (v : List String) (r : List (String × Nat)),
    BfsInv g idl s queue visited rel →
    bfsAux g idl fuel queue visited rel = some (v, r) →
    FinalState g idl s v r := by
  intro fuel
  induction fuel with
  | zero =>
    intro queue visited rel v r inv h
    cases queue with
    | nil =>
      simp only [bfsAux, Option.some.injEq, Prod.mk.injEq] at h
      obtain ⟨rfl, rfl⟩ := h
      exact bfsInv_terminal inv
    | cons a rest =>
      obtain ⟨c, d⟩ := a
      simp [bfsAux] at h
  | succ fuel ih =>
    intro queue visited rel v r inv h
    cases queue with
    | nil =>
      simp only [bfsAux, Option.some.injEq, Prod.mk.injEq] at h
      obtain ⟨rfl, rfl⟩ := h
      exact bfsInv_terminal inv
    | cons a rest =>
      obtain ⟨c, d⟩ := a
      rcases hpp : processParents idl (getParents g c) d visited rel rest with ⟨v', r', q'⟩
      rw [show bfsAux g idl (fuel + 1) ((c, d) :: rest) visited rel =
          bfsAux g idl fuel q' v' r' by simp [bfsAux, hpp]] at h
      exact ih q' v' r' v r (bfsInv_step inv hpp) h

theorem bfsRun_final {s : String} {g : List (String × List String)}
    {idl : List (String × String)} {v : List String} {r : List (String × Nat)}
    (h : bfsRun s g idl = some (v, r)) : FinalState g idl s v r :=
  bfsAux_final g idl s (fuelBound g) [(s, 0)] [s] [] v r (bfsInv_init g idl s) h

theorem get_ancestors_eq {s : String} {g : List (String × List String)}
    {idl : List (String × String)} {v : List String} {r : List (String × Nat)}
    (h : bfsRun s g idl = some (v, r)) : get_ancestors_with_depth s g idl = r := by
  unfold get_ancestors_with_depth
  rw [h]
  rfl

/-- The master lemma behind the claims about `get_ancestors_with_depth`:
the BFS always succeeds and its final state satisfies `FinalState`. -/
theorem get_ancestors_spec (s : String) (g : List (String × List String))
    (idl : List (String × String)) :
    ∃ v, bfsRun s g idl = some (v, get_ancestors_with_depth s g idl) ∧
      FinalState g idl s v (get_ancestors_with_depth s g idl) := by
  obtain ⟨v, r, h⟩ := bfsRun_total s g idl
  have := get_ancestors_eq h
  subst this
  exact ⟨v, h, bfsRun_final h⟩

/-! ## Loader lemmas -/

theorem loadAux_lti_invariant :
    ∀ (rows : List Row) (idl lti : List (String × String)) (g : List (String × List String))
      (idl' lti' : List (String × String)) (g' : List (String × List String)),
    (∀ e ∈ lti, (dictGet idl e.2).isSome) →
    loadAux rows idl lti g = .ok (idl', lti', g') →
    (∀ e ∈ lti', (dictGet idl' e.2).isSome) ∧
    (∀ k, (dictGet idl k).isSome → (dictGet idl' k).isSome) := by
  intro rows
  induction rows with
  | nil =>
    intro idl lti g idl' lti' g' hpre h
    simp only [loadAux, Except.ok.injEq, Prod.mk.injEq] at h
    obtain ⟨rfl, rfl, rfl⟩ := h
    exact ⟨hpre, fun k hk => hk⟩
  | cons row rest ih =>
    intro idl lti g idl' lti' g' hpre h
    cases hcid : row.classId with
    | none => simp [loadAux, hcid] at h
    | some cid =>
      cases hlab : row.prefLabel with
      | none => simp [loadAux, hcid, hlab] at h
      | some lab =>
        rw [show loadAux (row :: rest) idl lti g =
            loadAux rest (dictInsert (strTrim cid) (strTrim lab) idl)
              (dictInsert (strToLower (strTrim lab)) (strTrim cid) lti)
              (if parentsField row ≠ "" then
                dictExtend (strTrim cid) ((splitPipe (parentsField row)).map strTrim) g
              else dictInsert (strTrim cid) [] g) by
          simp [loadAux, hcid, hlab]] at h
        have hpre' : ∀ e ∈ dictInsert (strToLower (strTrim lab)) (strTrim cid) lti,
            (dictGet (dictInsert (strTrim cid) (strTrim lab) idl) e.2).isSome := by
          intro e he
          rcases mem_dictInsert he with rfl | he'
          · simp [dictGet_insert_self]
          · exact isSome_dictGet_insert _ _ _ _ (hpre e he')
        obtain ⟨h1, h2⟩ := ih _ _ _ _ _ _ hpre' h
        exact ⟨h1, fun k hk => h2 k (isSome_dictGet_insert _ _ _ _ hk)⟩

theorem loadAux_error_of_missing :
    ∀ (rows : List Row) (idl lti : List (String × String)) (g : List (String × List String))
      (r : Row), r ∈ rows → (r.classId = none ∨ r.prefLabel = none) →
    ∃ e, loadAux rows idl lti g = .error e := by
  intro rows
  induction rows with
  | nil =>
    intro idl lti g r hr
    cases hr
  | cons row rest ih =>
    intro idl lti g r hr hmiss
    cases hcid : row.classId with
    | none => exact ⟨"row is missing the Class ID field", by simp [loadAux, hcid]⟩
    | some cid =>
      cases hlab : row.prefLabel with
      | none => exact ⟨"row is missing the Preferred Label field", by simp [loadAux, hcid, hlab]⟩
      | some lab =>
        rcases List.mem_cons.mp hr with rfl | hr'
        · rcases hmiss with hm | hm
          · rw [hcid] at hm
            cases hm
          · rw [hlab] at hm
            cases hm
        · obtain ⟨e, he⟩ := ih (dictInsert (strTrim cid) (strTrim lab) idl)
            (dictInsert (strToLower (strTrim lab)) (strTrim cid) lti)
            (if parentsField row ≠ "" then
              dictExtend (strTrim cid) ((splitPipe (parentsField row)).map strTrim) g
            else dictInsert (strTrim cid) [] g) r hr' hmiss
          refine ⟨e, ?_⟩
          rw [show loadAux (row :: rest) idl lti g =
              loadAux rest (dictInsert (strTrim cid) (strTrim lab) idl)
                (dictInsert (strToLower (strTrim lab)) (strTrim cid) lti)
                (if parentsField row ≠ "" then
                  dictExtend (strTrim cid) ((splitPipe (parentsField row)).map strTrim) g
                else dictInsert (strTrim cid) [] g) by
            simp [loadAux, hcid, hlab]]
          exact he

theorem loadAux_graph_preserve (t : String) :
    ∀ (rows : List Row) (idl lti : List (String × String)) (g : List (String × List String))
      (idl' lti' : List (String × String)) (g' : List (String × List String)),
    (∀ r ∈ rows, rowHasId t r = false) →
    loadAux rows idl lti g = .ok (idl', lti', g') →
    dictGet g' t = dictGet g t := by
  intro rows
  induction rows with
  | nil =>
    intro idl lti g idl' lti' g' _ h
    simp only [loadAux, Except.ok.injEq, Prod.mk.injEq] at h
    obtain ⟨rfl, rfl, rfl⟩ := h
    rfl
  | cons row rest ih =>
    intro idl lti g idl' lti' g' hnone h
    cases hcid : row.classId with
    | none => simp [loadAux, hcid] at h
    | some cid =>
      cases hlab : row.prefLabel with
      | none => simp [loadAux, hcid, hlab] at h
      | some lab =>
        have hne : strTrim cid ≠ t := by
          have := hnone row (List.mem_cons_self _ _)
          simp only [rowHasId, hcid, decide_eq_false_iff_not] at this
          exact this
        rw [show loadAux (row :: rest) idl lti g =
            loadAux rest (dictInsert (strTrim cid) (strTrim lab) idl)
              (dictInsert (strToLower (strTrim lab)) (strTrim cid) lti)
              (if parentsField row ≠ "" then
                dictExtend (strTrim cid) ((splitPipe (parentsField row)).map strTrim) g
              else dictInsert (strTrim cid) [] g) by
          simp [loadAux, hcid, hlab]] at h
        have := ih _ _ _ _ _ _ (fun r hr => hnone r (List.mem_cons_of_mem _ hr)) h
        rw [this]
        by_cases hpf : parentsField row ≠ ""
        · rw [if_pos hpf]
          exact dictGet_extend_ne _ _ (fun hh => hne hh.symm)
        · rw [if_neg hpf]
          exact dictGet_insert_ne _ _ (fun hh => hne hh.symm)

theorem loadAux_graph_single (t : String) :
    ∀ (rows : List Row) (idl lti : List (String × String)) (g : List (String × List String))
      (idl' lti' : List (String × String)) (g' : List (String × List String)) (r : Row),
    loadAux rows idl lti g = .ok (idl', lti', g') →
    r ∈ rows → rowHasId t r = true →
    rows.countP (rowHasId t) = 1 →
    dictGet g t = none →
    dictGet g' t = some (expectedGraphEntry r) := by
  intro rows
  induction rows with
  | nil =>
    intro idl lti g idl' lti' g' r _ hr
    cases hr
  | cons row rest ih =>
    intro idl lti g idl' lti' g' r h hr hrid hcount hnone
    cases hcid : row.classId with
    | none => simp [loadAux, hcid] at h
    | some cid =>
      cases hlab : row.prefLabel with
      | none => simp [loadAux, hcid, hlab] at h
      | some lab =>
        rw [show loadAux (row :: rest) idl lti g =
            loadAux rest (dictInsert (strTrim cid) (strTrim lab) idl)
              (dictInsert (strToLower (strTrim lab)) (strTrim cid) lti)
              (if parentsField row ≠ "" then
                dictExtend (strTrim cid) ((splitPipe (parentsField row)).map strTrim) g
              else dictInsert (strTrim cid) [] g) by
          simp [loadAux, hcid, hlab]] at h
        by_cases hmatch : rowHasId t row = true
        · -- the head row is the unique one carrying id `t`
          have hrest0 : rest.countP (rowHasId t) = 0 := by
            simp only [List.countP_cons, hmatch, if_true] at hcount
            omega
          have hrrow : r = row := by
            rcases List.mem_cons.mp hr with h' | h'
            · exact h'
            · exfalso
              have : 0 < rest.countP (rowHasId t) :=
                List.countP_pos_iff.mpr ⟨r, h', hrid⟩
              omega
          subst hrrow
          have hkey : strTrim cid = t := by
            simp only [rowHasId, hcid, decide_eq_true_eq] at hmatch
            exact hmatch
          have hmid : dictGet (if parentsField r ≠ "" then
              dictExtend (strTrim cid) ((splitPipe (parentsField r)).map strTrim) g
            else dictInsert (strTrim cid) [] g) t = some (expectedGraphEntry r) := by
            unfold expectedGraphEntry
            by_cases hpf : parentsField r ≠ ""
            · rw [if_pos hpf, if_pos hpf, hkey]
              exact dictGet_extend_none g t _ hnone
            · rw [if_neg hpf, if_neg hpf, hkey]
              exact dictGet_insert_self g t []
          have hpres := loadAux_graph_preserve t rest _ _ _ _ _ _
            (fun r' hr' => by
              have := List.countP_eq_zero.mp hrest0 r' hr'
              simpa using this) h
          rw [hpres, hmid]
        · -- the head row carries a different id; recurse
          have hne : strTrim cid ≠ t := by
            simp only [rowHasId, hcid, decide_eq_true_eq] at hmatch
            exact hmatch
          have hr' : r ∈ rest := by
            rcases List.mem_cons.mp hr with h' | h'
            · subst h'
              exact absurd hrid hmatch
            · exact h'
          have hcount' : rest.countP (rowHasId t) = 1 := by
            have hm : rowHasId t row = false := by
              revert hmatch
              cases rowHasId t row <;> simp
            simp [List.countP_cons, hm] at hcount
            omega
          have hnone' : dictGet (if parentsField row ≠ "" then
              dictExtend (strTrim cid) ((splitPipe (parentsField row)).map strTrim) g
            else dictInsert (strTrim cid) [] g) t = none := by
            by_cases hpf : parentsField row ≠ ""
            · rw [if_pos hpf, dictGet_extend_ne _ _ (fun hh => hne hh.symm)]
              exact hnone
            · rw [if_neg hpf, dictGet_insert_ne _ _ (fun hh => hne hh.symm)]
              exact hnone
          exact ih _ _ _ _ _ _ r h hr' hrid hcount' hnone'

/-! ## Derived traversal facts -/

/-- When no two entries of `id_to_label` share a label, the traversal records
each reachable labeled ancestor's label at exactly its minimum sentinel-free
hop count. -/
theorem ancestors_depth_lookup (g : List (String × List String))
    (idl : List (String × String)) (s q l : String) (n : Nat)
    (hinj : ∀ e1 ∈ idl, ∀ e2 ∈ idl, e1.2 = e2.2 → e1.1 = e2.1)
    (hq : q ≠ s) (hd : IsDist g s q n) (hl : dictGet idl q = some l) :
    dictGet (get_ancestors_with_depth s g idl) l = some n := by
  obtain ⟨v, hrun, fin⟩ := get_ancestors_spec s g idl
  have hv : q ∈ v := fin.reach_mem q n hd.1
  have hsome := fin.rel_complete q hv hq l hl
  obtain ⟨m, hm⟩ := Option.isSome_iff_exists.mp hsome
  obtain ⟨q', hq'v, hq's, hq'l, hq'd⟩ := fin.rel_sound (l, m) (dictGet_mem hm)
  have hqq' : q' = q := hinj (q', l) (dictGet_mem hq'l) (q, l) (dictGet_mem hl) rfl
  subst hqq'
  have hmn : m = n := isDist_unique hq'd hd
  rw [hm, hmn]

/-! ## The claims -/

/-- C1, counterexample. The claim fails as stated, in two ways.
First input: in the graph `S -> [X, Y]`, `Y -> [Z]`, `Z -> [X]` where `X` and
`Z` carry the same label `"L"`, the ancestor `X` is reachable at hop counts
1 and 3, so the claim requires depth 1 for its label, but the BFS later
rediscovers the label `"L"` through `Z` and overwrites the depth with 2:
the depth for a label IS overwritten when a different entity shares the
label. Second input: `D` is reachable at hop counts 2 (through the sentinel
`owl#Thing`) and 3, so the claim requires depth 2, but paths through the
skipped sentinel are never traversed and the code records 3. -/
theorem ancestors_min_depth_counterexample :
    (RawReachN [("S", ["X", "Y"]), ("Y", ["Z"]), ("Z", ["X"])] "S" 1 "X" ∧
      RawReachN [("S", ["X", "Y"]), ("Y", ["Z"]), ("Z", ["X"])] "S" 3 "X" ∧
      dictGet [("X", "L"), ("Y", "ly"), ("Z", "L")] "X" = some "L" ∧
      dictGet (get_ancestors_with_depth "S" [("S", ["X", "Y"]), ("Y", ["Z"]), ("Z", ["X"])]
        [("X", "L"), ("Y", "ly"), ("Z", "L")]) "L" = some 2 ∧ (2 : Nat) ≠ 1) ∧
    (RawReachN [("A", [owlThing, "B"]), (owlThing, ["D"]), ("B", ["C"]), ("C", ["D"])] "A" 2 "D" ∧
      RawReachN [("A", [owlThing, "B"]), (owlThing, ["D"]), ("B", ["C"]), ("C", ["D"])] "A" 3 "D" ∧
      dictGet [("B", "lb"), ("C", "lc"), ("D", "ld")] "D" = some "ld" ∧
      dictGet (get_ancestors_with_depth "A"
        [("A", [owlThing, "B"]), (owlThing, ["D"]), ("B", ["C"]), ("C", ["D"])]
        [("B", "lb"), ("C", "lc"), ("D", "ld")]) "ld" = some 3 ∧ (3 : Nat) ≠ 2) := by
  refine ⟨⟨?_, ?_, by decide, by decide, by decide⟩, ⟨?_, ?_, by decide, by decide, by decide⟩⟩
  · have r0 : RawReachN [("S", ["X", "Y"]), ("Y", ["Z"]), ("Z", ["X"])] "S" 0 "S" :=
      RawReachN.refl
    exact r0.step (by decide)
  · have r0 : RawReachN [("S", ["X", "Y"]), ("Y", ["Z"]), ("Z", ["X"])] "S" 0 "S" :=
      RawReachN.refl
    have r1 : RawReachN [("S", ["X", "Y"]), ("Y", ["Z"]), ("Z", ["X"])] "S" 1 "Y" :=
      r0.step (by decide)
    have r2 : RawReachN [("S", ["X", "Y"]), ("Y", ["Z"]), ("Z", ["X"])] "S" 2 "Z" :=
      r1.step (by decide)
    exact r2.step (by decide)
  · have r0 : RawReachN [("A", [owlThing, "B"]), (owlThing, ["D"]), ("B", ["C"]), ("C", ["D"])]
        "A" 0 "A" := RawReachN.refl
    have r1 : RawReachN [("A", [owlThing, "B"]), (owlThing, ["D"]), ("B", ["C"]), ("C", ["D"])]
        "A" 1 owlThing := r0.step (by decide)
    exact r1.step (by decide)
  · have r0 : RawReachN [("A", [owlThing, "B"]), (owlThing, ["D"]), ("B", ["C"]), ("C", ["D"])]
        "A" 0 "A" := RawReachN.refl
    have r1 : RawReachN [("A", [owlThing, "B"]), (owlThing, ["D"]), ("B", ["C"]), ("C", ["D"])]
        "A" 1 "B" := r0.step (by decide)
    have r2 : RawReachN [("A", [owlThing, "B"]), (owlThing, ["D"]), ("B", ["C"]), ("C", ["D"])]
        "A" 2 "C" := r1.step (by decide)
    exact r2.step (by decide)

/-- C1 (amended): provided no two entities carry the same preferred label,
for every ancestor `q` of the start at minimum sentinel-free hop count `n`
(hop counts along parent-edge paths that do not pass through the skipped
sentinel), the depth `get_ancestors_with_depth` records for `q`'s label is
exactly `n`: the first-discovery BFS depth, never overwritten on
rediscovery of `q` itself. -/
theorem ancestors_min_depth (g : List (String × List String))
    (idl : List (String × String)) (s q l : String) (n : Nat)
    (hinj : ∀ e1 ∈ idl, ∀ e2 ∈ idl, e1.2 = e2.2 → e1.1 = e2.1)
    (hq : q ≠ s) (hd : IsDist g s q n) (hl : dictGet idl q = some l) :
    dictGet (get_ancestors_with_depth s g idl) l = some n :=
  ancestors_depth_lookup g idl s q l n hinj hq hd hl

/-- C1 witness: in the diamond `A -> [B, C]`, `B -> [D]`, `C -> [D]` with
injective labels, `D`'s label is recorded at depth 2. -/
theorem ancestors_min_depth_witness :
    dictGet (get_ancestors_with_depth "A" [("A", ["B", "C"]), ("B", ["D"]), ("C", ["D"])]
      [("A", "la"), ("B", "lb"), ("C", "lc"), ("D", "ld")]) "ld" = some 2 := by
  refine ancestors_min_depth [("A", ["B", "C"]), ("B", ["D"]), ("C", ["D"])]
    [("A", "la"), ("B", "lb"), ("C", "lc"), ("D", "ld")] "A" "D" "ld" 2
    (by decide) (by decide) ⟨?_, ?_⟩ (by decide)
  · have r0 : ReachN [("A", ["B", "C"]), ("B", ["D"]), ("C", ["D"])] "A" 0 "A" := ReachN.refl
    have r1 : ReachN [("A", ["B", "C"]), ("B", ["D"]), ("C", ["D"])] "A" 1 "B" :=
      r0.step (by decide) (by decide)
    exact r1.step (by decide) (by decide)
  · intro m hm hr
    interval_cases m
    · exact absurd ((reachN_zero_iff _ _ _).mp hr) (by decide)
    · obtain ⟨p, hp, hmem, _⟩ := (reachN_succ_iff _ _ _ 0).mp hr
      rw [(reachN_zero_iff _ _ _).mp hp] at hmem
      revert hmem
      decide

/-- C2: when the start differs from the sentinel (so that the initial state
does not itself contain it), the sentinel root identifier is never marked
visited, every visited id is the start or genuinely reachable without
passing through the sentinel (so the sentinel's own parents are never
traversed through it), and every recorded entry arises from a visited
non-sentinel entity. Since every enqueued id is immediately marked visited
and the final visited set contains all intermediate ones, the sentinel is
in particular never enqueued. -/
theorem sentinel_skipped (g : List (String × List String)) (idl : List (String × String))
    (s : String) (hs : s ≠ owlThing) :
    ∃ v, bfsRun s g idl = some (v, get_ancestors_with_depth s g idl) ∧
      owlThing ∉ v ∧
      (∀ x ∈ v, ∃ n, ReachN g s n x) ∧
      (∀ e ∈ get_ancestors_with_depth s g idl,
        ∃ q, q ∈ v ∧ q ≠ owlThing ∧ dictGet idl q = some e.1) := by
  obtain ⟨v, hrun, fin⟩ := get_ancestors_spec s g idl
  have hnv : owlThing ∉ v := fin.sentinel_free hs
  refine ⟨v, hrun, hnv, fin.mem_reach, ?_⟩
  intro e he
  obtain ⟨q, hqv, _, hql, _⟩ := fin.rel_sound e he
  exact ⟨q, hqv, fun h => hnv (h ▸ hqv), hql⟩

/-- C2 witness: a concrete graph in which two entities cite the sentinel as a
parent and the sentinel itself has a parent `P`. -/
theorem sentinel_skipped_witness :
    ∃ v, bfsRun "E" [("E", [owlThing, "F"]), ("F", [owlThing]), (owlThing, ["P"])]
        [(owlThing, "thing"), ("F", "lf"), ("P", "lp")] =
      some (v, get_ancestors_with_depth "E"
        [("E", [owlThing, "F"]), ("F", [owlThing]), (owlThing, ["P"])]
        [(owlThing, "thing"), ("F", "lf"), ("P", "lp")]) ∧
      owlThing ∉ v ∧
      (∀ x ∈ v, ∃ n, ReachN [("E", [owlThing, "F"]), ("F", [owlThing]), (owlThing, ["P"])] "E" n x) ∧
      (∀ e ∈ get_ancestors_with_depth "E"
          [("E", [owlThing, "F"]), ("F", [owlThing]), (owlThing, ["P"])]
          [(owlThing, "thing"), ("F", "lf"), ("P", "lp")],
        ∃ q, q ∈ v ∧ q ≠ owlThing ∧
          dictGet [(owlThing, "thing"), ("F", "lf"), ("P", "lp")] q = some e.1) :=
  sentinel_skipped [("E", [owlThing, "F"]), ("F", [owlThing]), (owlThing, ["P"])]
    [(owlThing, "thing"), ("F", "lf"), ("P", "lp")] "E" (by decide)

/-- C3: for every finite graph — cyclic ones included — and every starting
id, the BFS loop of `get_ancestors_with_depth` terminates: starting from the
initial queue `[(s, 0)]` and visited set `{s}`, the loop empties its queue
within `fuelBound graph` iterations, because the visited-set guard lets each
id be enqueued at most once. -/
theorem traversal_terminates (g : List (String × List String))
    (idl : List (String × String)) (s : String) :
    ∃ out, bfsAux g idl (fuelBound g) [(s, 0)] [s] [] = some out := by
  obtain ⟨v, r, h⟩ := bfsRun_total s g idl
  exact ⟨(v, r), h⟩

/-- C4, counterexample. The claim fails as stated: keys of the result are
labels, and another entity may carry the starting entity's label — or a
label equal to the starting entity's id string. First input: start `A` has
label `"L"`, its parent `B` also has label `"L"`, and `"L"` (the starting
entity's label) is a key of the result. Second input: the parent `B`'s label
is the string `"A"`, the starting entity's id, and `"A"` is a key. -/
theorem start_never_key_counterexample :
    (dictGet [("A", "L"), ("B", "L")] "A" = some "L" ∧
      dictGet (get_ancestors_with_depth "A" [("A", ["B"])] [("A", "L"), ("B", "L")]) "L" =
        some 1) ∧
    (dictGet (get_ancestors_with_depth "A" [("A", ["B"])] [("A", "la"), ("B", "A")]) "A" =
      some 1) := by
  exact ⟨⟨by decide, by decide⟩, by decide⟩

/-- C4 (amended): the starting entity itself is never recorded — even when a
cycle of parent edges leads back to it — so a string `t` appears as a key of
the result only if some entity other than the start carries `t` as its
label. Whenever no entity other than the start has label `t` (in particular
when `t` is the start's own label or id and no other entity shares it), `t`
is not a key. -/
theorem start_never_key (g : List (String × List String)) (idl : List (String × String))
    (s t : String) (ht : ∀ e ∈ idl, e.2 = t → e.1 = s) :
    dictGet (get_ancestors_with_depth s g idl) t = none := by
  obtain ⟨v, hrun, fin⟩ := get_ancestors_spec s g idl
  cases hres : dictGet (get_ancestors_with_depth s g idl) t with
  | none => rfl
  | some m =>
    obtain ⟨q, _, hqs, hql, _⟩ := fin.rel_sound (t, m) (dictGet_mem hres)
    exact absurd (ht (q, t) (dictGet_mem hql) rfl) hqs

/-- C4 witness: a two-element cycle back to the start; the start's label is
not a key of the result. -/
theorem start_never_key_witness :
    dictGet (get_ancestors_with_depth "A" [("A", ["B"]), ("B", ["A"])]
      [("A", "la"), ("B", "lb")]) "la" = none :=
  start_never_key [("A", ["B"]), ("B", ["A"])] [("A", "la"), ("B", "lb")] "A" "la" (by decide)

/-- C5, counterexample. The claim fails as stated: `graph[id]` is built with
`defaultdict(list).extend`, so when the same id occurs in two records with
non-empty parents fields, the lists accumulate across records instead of the
last record's list (set semantics) winning: two records for `X` with parents
`"A"` and `"B"` leave `graph[X] = ["A", "B"]`, not `["B"]`. -/
theorem load_graph_counterexample :
    load_ontology [⟨some "X", some "l1", some "A"⟩, ⟨some "X", some "l2", some "B"⟩] =
      .ok ([("X", "l2")], [("l1", "X"), ("l2", "X")], [("X", ["A", "B"])]) ∧
    (["A", "B"] : List String) ≠ ["B"] :=
  ⟨by rfl, by decide⟩

/-- C5 (amended): for every record whose (trimmed) class identifier occurs in
exactly one record of the source, the loaded graph binds that identifier to
exactly the record's parents field split on `'|'` with each token trimmed —
an explicit empty list when the parents field is empty. When the same
identifier occurs in several records, non-empty parent lists accumulate by
concatenation and an empty parents field resets the entry to the empty
list, rather than the last record's list winning. -/
theorem load_graph_entry (rows : List Row) (idl lti : List (String × String))
    (g : List (String × List String)) (r : Row) (cid : String)
    (hok : load_ontology rows = .ok (idl, lti, g))
    (hr : r ∈ rows) (hcid : r.classId = some cid)
    (hcount : rows.countP (rowHasId (strTrim cid)) = 1) :
    dictGet g (strTrim cid) = some (expectedGraphEntry r) := by
  refine loadAux_graph_single (strTrim cid) rows [] [] [] idl lti g r hok hr ?_ hcount rfl
  simp [rowHasId, hcid]

/-- C5 witness: one record with padded fields; its graph entry is the
trimmed split list. -/
theorem load_graph_entry_witness :
    dictGet [("X", ["A", "B"])] (strTrim " X ") =
      some (expectedGraphEntry ⟨some " X ", some "lx", some " A |B "⟩) :=
  load_graph_entry [⟨some " X ", some "lx", some " A |B "⟩] [("X", "lx")] [("lx", "X")]
    [("X", ["A", "B"])] ⟨some " X ", some "lx", some " A |B "⟩ " X " (by rfl)
    (by decide) (by decide) (by decide)

/-- C6, counterexample. The claim fails as stated for the parents field: a
record whose `Parents` value is missing (`None` from `csv.DictReader`) does
not fail the load — the guard `row['Parents'].strip() if row['Parents']
else ''` silently treats it as "no parents" and the load succeeds. -/
theorem load_missing_field_counterexample :
    load_ontology [⟨some "X", some "lx", none⟩] =
      .ok ([("X", "lx")], [("lx", "X")], [("X", [])]) := by
  rfl

/-- C6 (amended): a record whose class-identifier or preferred-label field is
missing fails the whole load with an error — no partially populated
structures are returned (the `Except.error` result carries no structures).
A record missing only the parents field is instead loaded as having no
parents. -/
theorem load_fails_on_missing (rows : List Row) (r : Row) (hr : r ∈ rows)
    (hmiss : r.classId = none ∨ r.prefLabel = none) :
    ∃ e, load_ontology rows = .error e :=
  loadAux_error_of_missing rows [] [] [] r hr hmiss

/-- C6 witness: a well-formed record followed by one missing its class
identifier; the whole load errors. -/
theorem load_fails_on_missing_witness :
    ∃ e, load_ontology [⟨some "X", some "lx", some "P"⟩, ⟨none, some "ly", some "Q"⟩] =
      .error e :=
  load_fails_on_missing [⟨some "X", some "lx", some "P"⟩, ⟨none, some "ly", some "Q"⟩]
    ⟨none, some "ly", some "Q"⟩ (by decide) (Or.inl rfl)

/-- C7: `find_entity_id` trims the query; if the trimmed string is a key of
`id_to_label` it is returned verbatim (exact, case-sensitive id match, with
priority over any label match — the `label_to_id` map is not even
consulted); otherwise the lowercased trimmed query is looked up in
`label_to_id`, whose result — found id or `none` — is returned as a normal
value. -/
theorem find_entity_id_spec (query : String) (idl lti : List (String × String)) :
    ((dictGet idl (strTrim query)).isSome →
      find_entity_id query idl lti = some (strTrim query)) ∧
    (dictGet idl (strTrim query) = none →
      find_entity_id query idl lti = dictGet lti (strToLower (strTrim query))) := by
  constructor
  · intro h
    simp [find_entity_id, h]
  · intro h
    cases hm : dictGet lti (strToLower (strTrim query)) <;>
      simp [find_entity_id, h, hm]

/-- C7 witness: the query `" X1 "` is trimmed and returned verbatim as the id
`X1`, even though the label map would send the lowercased query of another
entity's label `"a"` to a different entity. -/
theorem find_entity_id_spec_witness :
    find_entity_id " X1 " [("X1", "A")] [("a", "X2")] = some "X1" :=
  (find_entity_id_spec " X1 " [("X1", "A")] [("a", "X2")]).1 (by decide)

/-- C8, counterexample. The "at their correct depths" part of the claim fails
as stated: beyond the unlabeled id `U`, the labeled ancestor `X` (label
`"L"`, minimum depth 2) does appear in the result, but a deeper entity `Z`
shares the label `"L"` and its later discovery overwrites the depth, so the
result records `"L"` at 3, not at `X`'s correct depth 2. -/
theorem unlabeled_traversal_counterexample :
    dictGet [("X", "L"), ("Y", "ly"), ("Z", "L")] "U" = none ∧
    dictGet [("X", "L"), ("Y", "ly"), ("Z", "L")] "X" = some "L" ∧
    IsDist [("A", ["U"]), ("U", ["X", "Y"]), ("Y", ["Z"])] "A" "X" 2 ∧
    dictGet (get_ancestors_with_depth "A" [("A", ["U"]), ("U", ["X", "Y"]), ("Y", ["Z"])]
      [("X", "L"), ("Y", "ly"), ("Z", "L")]) "L" = some 3 ∧
    (3 : Nat) ≠ 2 := by
  refine ⟨by decide, by decide, ⟨?_, ?_⟩, by decide, by decide⟩
  · have r0 : ReachN [("A", ["U"]), ("U", ["X", "Y"]), ("Y", ["Z"])] "A" 0 "A" := ReachN.refl
    have r1 : ReachN [("A", ["U"]), ("U", ["X", "Y"]), ("Y", ["Z"])] "A" 1 "U" :=
      r0.step (by decide) (by decide)
    exact r1.step (by decide) (by decide)
  · intro m hm hr
    interval_cases m
    · exact absurd ((reachN_zero_iff _ _ _).mp hr) (by decide)
    · obtain ⟨p, hp, hmem, _⟩ := (reachN_succ_iff _ _ _ 0).mp hr
      rw [(reachN_zero_iff _ _ _).mp hp] at hmem
      revert hmem
      decide

/-- C8 (amended): a reachable parent id `p` with no `id_to_label` entry is
still marked visited (so it was enqueued and its own parents are traversed),
it contributes no key to the result (every recorded key is the label of a
visited labeled entity, necessarily different from `p`), and — provided no
two entities share a label — every labeled ancestor, including those beyond
`p`, appears in the result at its correct minimum sentinel-free depth. -/
theorem unlabeled_traversal (g : List (String × List String)) (idl : List (String × String))
    (s p : String) (np : Nat)
    (hinj : ∀ e1 ∈ idl, ∀ e2 ∈ idl, e1.2 = e2.2 → e1.1 = e2.1)
    (hp : dictGet idl p = none) (hd : IsDist g s p np) :
    ∃ v, bfsRun s g idl = some (v, get_ancestors_with_depth s g idl) ∧
      p ∈ v ∧
      (∀ e ∈ get_ancestors_with_depth s g idl,
        ∃ q, q ∈ v ∧ q ≠ p ∧ dictGet idl q = some e.1) ∧
      (∀ q m l, IsDist g s q m → q ≠ s → dictGet idl q = some l →
        dictGet (get_ancestors_with_depth s g idl) l = some m) := by
  obtain ⟨v, hrun, fin⟩ := get_ancestors_spec s g idl
  refine ⟨v, hrun, fin.reach_mem p np hd.1, ?_, ?_⟩
  · intro e he
    obtain ⟨q, hqv, _, hql, _⟩ := fin.rel_sound e he
    refine ⟨q, hqv, ?_, hql⟩
    intro hqp
    rw [hqp, hp] at hql
    cases hql
  · intro q m l hdq hqs hlq
    exact ancestors_depth_lookup g idl s q l m hinj hqs hdq hlq

/-- C8 witness: `U` is unlabeled and reachable at depth 1; the labeled
ancestor `B` beyond it is recorded at its correct depth 2. -/
theorem unlabeled_traversal_witness :
    ∃ v, bfsRun "A" [("A", ["U"]), ("U", ["B"])] [("B", "lb")] =
      some (v, get_ancestors_with_depth "A" [("A", ["U"]), ("U", ["B"])] [("B", "lb")]) ∧
      "U" ∈ v ∧
      (∀ e ∈ get_ancestors_with_depth "A" [("A", ["U"]), ("U", ["B"])] [("B", "lb")],
        ∃ q, q ∈ v ∧ q ≠ "U" ∧ dictGet [("B", "lb")] q = some e.1) ∧
      (∀ q m l, IsDist [("A", ["U"]), ("U", ["B"])] "A" q m → q ≠ "A" →
        dictGet [("B", "lb")] q = some l →
        dictGet (get_ancestors_with_depth "A" [("A", ["U"]), ("U", ["B"])] [("B", "lb")]) l =
          some m) := by
  refine unlabeled_traversal [("A", ["U"]), ("U", ["B"])] [("B", "lb")] "A" "U" 1
    (by decide) (by decide) ⟨?_, ?_⟩
  · have r0 : ReachN [("A", ["U"]), ("U", ["B"])] "A" 0 "A" := ReachN.refl
    exact r0.step (by decide) (by decide)
  · intro m hm hr
    interval_cases m
    exact absurd ((reachN_zero_iff _ _ _).mp hr) (by decide)

/-- C9: the traversal never fails. For every entity id, graph and label map,
the BFS returns a final state; and when the entity has no parent entry in
the graph — or an explicit empty parent list — the returned mapping is
empty rather than an error. -/
theorem traversal_never_fails (g : List (String × List String))
    (idl : List (String × String)) (e : String) :
    (∃ out, bfsRun e g idl = some out) ∧
    ((dictGet g e = none ∨ dictGet g e = some []) →
      get_ancestors_with_depth e g idl = []) := by
  constructor
  · obtain ⟨v, r, h⟩ := bfsRun_total e g idl
    exact ⟨(v, r), h⟩
  · intro h
    have hpar : getParents g e = [] := by
      rcases h with h | h <;> simp [getParents, h]
    have hrun : bfsRun e g idl = some ([e], []) := by
      unfold bfsRun fuelBound
      rw [show (g.map fun p => p.2.length).sum + 1 =
        Nat.succ ((g.map fun p => p.2.length).sum) from rfl]
      simp [bfsAux, hpar, processParents]
    exact get_ancestors_eq hrun

/-- C9 witness: an entity with an explicit empty parent list gets the empty
mapping. -/
theorem traversal_never_fails_witness :
    get_ancestors_with_depth "E" [("E", [])] [("E", "le")] = [] :=
  (traversal_never_fails [("E", [])] [("E", "le")] "E").2 (Or.inr (by decide))

/-- C10: after a successful load, every value stored in `label_to_id` is a
key of `id_to_label`; consequently whatever id `find_entity_id` returns —
via the id branch or via the label branch — has a label in `id_to_label`. -/
theorem label_to_id_values_labeled (rows : List Row) (idl lti : List (String × String))
    (g : List (String × List String)) (hok : load_ontology rows = .ok (idl, lti, g)) :
    (∀ e ∈ lti, (dictGet idl e.2).isSome) ∧
    (∀ query i, find_entity_id query idl lti = some i → (dictGet idl i).isSome) := by
  have h := loadAux_lti_invariant rows [] [] [] idl lti g (by intro e he; cases he) hok
  refine ⟨h.1, ?_⟩
  intro query i hfind
  by_cases hid : (dictGet idl (strTrim query)).isSome
  · rw [show find_entity_id query idl lti = some (strTrim query) by
      simp [find_entity_id, hid]] at hfind
    injection hfind with hfind
    rwa [hfind] at hid
  · rw [Option.not_isSome_iff_eq_none] at hid
    cases hm : dictGet lti (strToLower (strTrim query)) with
    | none => simp [find_entity_id, hid, hm] at hfind
    | some j =>
      rw [show find_entity_id query idl lti = some j by simp [find_entity_id, hid, hm]] at hfind
      injection hfind with hfind
      rw [← hfind]
      exact h.1 (strToLower (strTrim query), j) (dictGet_mem hm)

/-- C10 witness: resolving the label `"lab"` returns `X1`, which has a label. -/
theorem label_to_id_values_labeled_witness :
    (dictGet [("X1", "Lab")] "X1").isSome :=
  (label_to_id_values_labeled [⟨some "X1", some "Lab", some ""⟩] [("X1", "Lab")]
    [("lab", "X1")] [("X1", [])] (by rfl)).2 "lab" "X1" (by decide)
